import Mathlib

/-!
Verification of `hydra_llm/src/object_update_functor.cpp` (namespace `hydra::llm`).

The development shallowly embeds the data model and operations of the object
update functor:

* `IdTracker` — the reusable component-identifier pool (`IdTracker::next`,
  `IdTracker::markFree`).
* `OverlapIntersection.call` — the bounding-box connectivity predicate.
* `getBestParent` — the first-wins parent selection over a cluster.
* `getMergedAttributes` — the merged-attribute computation for a cluster.
* A state machine `FState` with the four per-cycle phases of
  `ObjectUpdateFunctor::call`: `updateActiveParents`, `addSegmentEdges`,
  `clearActiveComponents` and `detectObjects`, composed in source order by
  `callCycle`, with the external collaborators (scoring, clustering oracle,
  connected components, nearest-neighbor search) supplied as parameters.

Machine floats are modelled by `ℚ` (the claims under study concern the logical
structure of the comparisons, not rounding behaviour).
-/

namespace HydraLLM

/-! ## IdTracker (object_update_functor.cpp lines 26-46) -/

/-- State of the component-identifier pool: the next-counter `idx` and the
FIFO queue `unused` of freed identifiers (source fields `idx_`, `unused_`). -/
structure IdTracker where
  idx : Nat
  unused : List Nat
deriving DecidableEq, Repr

/-- `IdTracker::IdTracker(size_t start)`. -/
def IdTracker.mk0 (start : Nat) : IdTracker := ⟨start, []⟩

/-- `IdTracker::next`: defaults to the counter and advances it when the queue
is empty, otherwise pops the front of the queue. Returns the issued id and the
successor state. -/
def IdTracker.next (t : IdTracker) : Nat × IdTracker :=
  match t.unused with
  | [] => (t.idx, ⟨t.idx + 1, []⟩)
  | i :: rest => (i, ⟨t.idx, rest⟩)

/-- `IdTracker::markFree`: appends the id at the back of the queue, but only
when it is strictly below the counter. -/
def IdTracker.markFree (t : IdTracker) (i : Nat) : IdTracker :=
  if i < t.idx then ⟨t.idx, t.unused ++ [i]⟩ else t

/-- A request made of the pool: either issue an id (`next`) or free one. -/
inductive IdOp where
  | issue : IdOp
  | free : Nat → IdOp
deriving DecidableEq, Repr

/-- Run a sequence of requests against the pool, collecting the ids issued by
the `next` calls, in order. -/
def IdTracker.runOps : IdTracker → List IdOp → List Nat × IdTracker
  | t, [] => ([], t)
  | t, IdOp.issue :: rest =>
      let p := t.next
      let q := IdTracker.runOps p.2 rest
      (p.1 :: q.1, q.2)
  | t, IdOp.free i :: rest => IdTracker.runOps (t.markFree i) rest

/-- The ids that a request sequence asks to free, in order. -/
def freeVals : List IdOp → List Nat
  | [] => []
  | IdOp.issue :: rest => freeVals rest
  | IdOp.free i :: rest => i :: freeVals rest

theorem IdTracker.markFree_idx (t : IdTracker) (i : Nat) :
    (t.markFree i).idx = t.idx := by
  unfold IdTracker.markFree
  split <;> rfl

/-- Counting bound behind the no-retroactive-reuse property: from any state,
an id `v` can be issued at most (current queue occurrences of `v`) plus
(future free requests of `v`) plus one (the single possible counter issue,
available only while the counter has not passed `v`) times. -/
theorem IdTracker.runOps_count_le (ops : List IdOp) : ∀ (t : IdTracker) (v : Nat),
    ((t.runOps ops).1).count v ≤
      t.unused.count v + (freeVals ops).count v + (if t.idx ≤ v then 1 else 0) := by
  induction ops with
  | nil =>
    intro t v
    simp [IdTracker.runOps]
  | cons op rest ih =>
    intro t v
    cases op with
    | issue =>
      rcases hq : t.unused with _ | ⟨u, qrest⟩
      · have hnext : t.next = (t.idx, ⟨t.idx + 1, []⟩) := by
          unfold IdTracker.next
          rw [hq]
        have hrun : (t.runOps (IdOp.issue :: rest)).1 =
            t.idx :: ((IdTracker.mk (t.idx + 1) []).runOps rest).1 := by
          simp only [IdTracker.runOps, hnext]
        have ihs := ih ⟨t.idx + 1, []⟩ v
        rw [hrun, List.count_cons]
        simp only [List.count_nil, freeVals, beq_iff_eq] at ihs ⊢
        by_cases hv : t.idx = v
        · rw [if_pos hv, if_pos (by omega)]
          rw [if_neg (by omega)] at ihs
          omega
        · rw [if_neg hv]
          by_cases hle : t.idx ≤ v
          · rw [if_pos hle]
            rw [if_pos (by omega)] at ihs
            omega
          · rw [if_neg hle]
            rw [if_neg (by omega)] at ihs
            omega
      · have hnext : t.next = (u, ⟨t.idx, qrest⟩) := by
          unfold IdTracker.next
          rw [hq]
        have hrun : (t.runOps (IdOp.issue :: rest)).1 =
            u :: ((IdTracker.mk t.idx qrest).runOps rest).1 := by
          simp only [IdTracker.runOps, hnext]
        have ihs := ih ⟨t.idx, qrest⟩ v
        rw [hrun, List.count_cons, List.count_cons]
        simp only [freeVals] at ihs ⊢
        omega
    | free i =>
      by_cases hacc : i < t.idx
      · have hmf : t.markFree i = ⟨t.idx, t.unused ++ [i]⟩ := by
          unfold IdTracker.markFree
          rw [if_pos hacc]
        have hrun : t.runOps (IdOp.free i :: rest) =
            (IdTracker.mk t.idx (t.unused ++ [i])).runOps rest := by
          simp only [IdTracker.runOps, hmf]
        have ihs := ih ⟨t.idx, t.unused ++ [i]⟩ v
        rw [hrun]
        simp only [freeVals, List.count_append, List.count_cons, List.count_nil]
          at ihs ⊢
        omega
      · have hmf : t.markFree i = t := by
          unfold IdTracker.markFree
          rw [if_neg hacc]
        have hrun : t.runOps (IdOp.free i :: rest) = t.runOps rest := by
          simp only [IdTracker.runOps, hmf]
        have ihs := ih t v
        rw [hrun]
        simp only [freeVals, List.count_cons] at ihs ⊢
        omega

/-- C5: `next()` returns the front of the freed-id queue (the oldest, since
`markFree` appends at the back) without advancing the counter when the queue
is non-empty, else returns and advances the counter; `markFree` for an id at
or above the counter is a no-op and otherwise appends at the back; and along
any request sequence from a fresh pool, an id is issued at most once more
than it is explicitly freed, so counter-issued ids are never reused except
via explicit release. -/
theorem idTracker_next_release_spec :
    (∀ (t : IdTracker) (i : Nat) (rest : List Nat), t.unused = i :: rest →
        t.next = (i, ⟨t.idx, rest⟩))
    ∧ (∀ t : IdTracker, t.unused = [] → t.next = (t.idx, ⟨t.idx + 1, []⟩))
    ∧ (∀ (t : IdTracker) (i : Nat), t.idx ≤ i → t.markFree i = t)
    ∧ (∀ (t : IdTracker) (i : Nat), i < t.idx →
        t.markFree i = ⟨t.idx, t.unused ++ [i]⟩)
    ∧ (∀ (start : Nat) (ops : List IdOp) (v : Nat),
        (((IdTracker.mk0 start).runOps ops).1).count v ≤ (freeVals ops).count v + 1) := by
  refine ⟨?_, ?_, ?_, ?_, ?_⟩
  · intro t i rest hq
    unfold IdTracker.next
    rw [hq]
  · intro t hq
    unfold IdTracker.next
    rw [hq]
  · intro t i h
    unfold IdTracker.markFree
    rw [if_neg (by omega)]
  · intro t i h
    unfold IdTracker.markFree
    rw [if_pos h]
  · intro start ops v
    have hb := IdTracker.runOps_count_le ops (IdTracker.mk0 start) v
    simp only [IdTracker.mk0, List.count_nil] at hb ⊢
    by_cases hle : start ≤ v
    · rw [if_pos hle] at hb
      omega
    · rw [if_neg hle] at hb
      omega

/-- Witness for C5 at concrete pool states and a concrete request sequence. -/
theorem idTracker_next_release_spec_witness :
    IdTracker.next ⟨5, [2, 4]⟩ = (2, ⟨5, [4]⟩)
    ∧ IdTracker.next ⟨5, []⟩ = (5, ⟨6, []⟩)
    ∧ IdTracker.markFree ⟨5, []⟩ 7 = ⟨5, []⟩
    ∧ IdTracker.markFree ⟨5, [2]⟩ 3 = ⟨5, [2, 3]⟩
    ∧ (((IdTracker.mk0 0).runOps [IdOp.issue, IdOp.free 0, IdOp.issue]).1).count 0 ≤
        (freeVals [IdOp.issue, IdOp.free 0, IdOp.issue]).count 0 + 1 :=
  ⟨idTracker_next_release_spec.1 ⟨5, [2, 4]⟩ 2 [4] rfl,
   idTracker_next_release_spec.2.1 ⟨5, []⟩ rfl,
   idTracker_next_release_spec.2.2.1 ⟨5, []⟩ 7 (by decide),
   idTracker_next_release_spec.2.2.2.1 ⟨5, [2]⟩ 3 (by decide),
   idTracker_next_release_spec.2.2.2.2 0 [IdOp.issue, IdOp.free 0, IdOp.issue] 0⟩

/-- C10 counterexample: in the pool state with counter 5 and freed queue `[0]`,
releasing id 1 twice does queue it twice (no duplicate check), but the next
`next()` call returns 0, not 1 — so the claim that the next two calls both
return the doubly-released id fails when the free list was not empty. -/
theorem idTracker_double_release_cex :
    ((IdTracker.markFree (IdTracker.markFree ⟨5, [0]⟩ 1) 1).unused.count 1 = 2)
    ∧ ((IdTracker.markFree (IdTracker.markFree ⟨5, [0]⟩ 1) 1).next).1 ≠ 1 := by
  decide

/-- C10 (amended): `markFree` performs no duplicate check — releasing an id
strictly below the counter twice always adds two queue occurrences of it, and
if the free list was empty beforehand the next two `next()` calls both return
that id. -/
theorem idTracker_double_release :
    (∀ (t : IdTracker) (i : Nat), i < t.idx →
        ((t.markFree i).markFree i).unused.count i = t.unused.count i + 2)
    ∧ (∀ (t : IdTracker) (i : Nat), t.unused = [] → i < t.idx →
        ((t.markFree i).markFree i).unused = [i, i]
        ∧ (((t.markFree i).markFree i).next).1 = i
        ∧ ((((t.markFree i).markFree i).next).2.next).1 = i) := by
  constructor
  · intro t i h
    have hstep : (t.markFree i).markFree i = ⟨t.idx, (t.unused ++ [i]) ++ [i]⟩ := by
      simp [IdTracker.markFree, h]
    rw [hstep]
    simp only [List.count_append, List.count_cons, List.count_nil, beq_self_eq_true,
      eq_self_iff_true, if_true]
  · intro t i hq h
    have hfirst : t.markFree i = ⟨t.idx, [i]⟩ := by
      simp [IdTracker.markFree, h, hq]
    have hsecond : (t.markFree i).markFree i = ⟨t.idx, [i, i]⟩ := by
      rw [hfirst]
      simp [IdTracker.markFree, h]
    refine ⟨by rw [hsecond], ?_, ?_⟩
    · rw [hsecond]
      rfl
    · rw [hsecond]
      rfl

/-- Witness for C10 (amended) at a concrete pool state. -/
theorem idTracker_double_release_witness :
    ((IdTracker.markFree (IdTracker.markFree ⟨5, []⟩ 3) 3).unused.count 3 =
        (IdTracker.mk 5 []).unused.count 3 + 2)
    ∧ ((IdTracker.markFree (IdTracker.markFree ⟨5, []⟩ 3) 3).unused = [3, 3]) :=
  ⟨idTracker_double_release.1 ⟨5, []⟩ 3 (by decide),
   (idTracker_double_release.2 ⟨5, []⟩ 3 rfl (by decide)).1⟩

/-! ## OverlapIntersection (object_update_functor.cpp lines 48-72) -/

/-- An axis-aligned bounding box with per-axis minimum and maximum corners
(source `bounding_box.min` / `bounding_box.max`). -/
structure BoundingBox where
  bmin : Fin 3 → ℚ
  bmax : Fin 3 → ℚ

/-- `OverlapIntersection::call`: stacks the four corner rows
`[lhs.min; rhs.min; lhs.max; rhs.max]`, subtracts the column-wise minimum
(the joint minimum corner) from every row, then checks `lhs.min ≤ rhs.max`
and `lhs.max ≥ rhs.min` component-wise. The configured `tolerance` is stored
in the config but never read by the computation (the source carries a TODO
about expanding the boxes). -/
def OverlapIntersection.call (tolerance : ℚ) (lhs rhs : BoundingBox) : Bool :=
  let m : Fin 3 → ℚ := fun i =>
    min (min (lhs.bmin i) (rhs.bmin i)) (min (lhs.bmax i) (rhs.bmax i))
  decide ((∀ i, lhs.bmin i - m i ≤ rhs.bmax i - m i)
    ∧ (∀ i, lhs.bmax i - m i ≥ rhs.bmin i - m i))

/-- Modelled from the spec (§4.2): `overlaps(boxA, boxB, tolerance)` with the
tolerance expanding the effective extents of the boxes, i.e. `minA ≤ maxB`
and `maxA ≥ minB` component-wise on the tolerance-expanded boxes. -/
def overlapsSpec (tolerance : ℚ) (lhs rhs : BoundingBox) : Bool :=
  decide ((∀ i, lhs.bmin i - tolerance ≤ rhs.bmax i + tolerance)
    ∧ (∀ i, lhs.bmax i + tolerance ≥ rhs.bmin i - tolerance))

/-- The box `[0, 1]³`. -/
def boxUnit : BoundingBox := ⟨fun _ => 0, fun _ => 1⟩

/-- The box `[3, 4]³`. -/
def boxFar : BoundingBox := ⟨fun _ => 3, fun _ => 4⟩

/-- C2 helper: the code's predicate holds iff `minA ≤ maxB` and `maxA ≥ minB`
component-wise — aligning both boxes to their joint minimum corner does not
change either comparison over exact arithmetic. -/
theorem overlap_call_char (tol : ℚ) (lhs rhs : BoundingBox) :
    OverlapIntersection.call tol lhs rhs = true ↔
      ((∀ i, lhs.bmin i ≤ rhs.bmax i) ∧ (∀ i, rhs.bmin i ≤ lhs.bmax i)) := by
  unfold OverlapIntersection.call
  simp only [decide_eq_true_eq, ge_iff_le, sub_le_sub_iff_right]

/-- C2 counterexample: with tolerance 2, the boxes `[0,1]³` and `[3,4]³`
satisfy the spec's tolerance-expanded overlap predicate, yet the code's
predicate returns false — the configured tolerance does not expand or
contract the effective extents, it is ignored. -/
theorem overlap_tolerance_cex :
    OverlapIntersection.call 2 boxUnit boxFar = false
    ∧ overlapsSpec 2 boxUnit boxFar = true := by
  constructor
  · rw [Bool.eq_false_iff, Ne, overlap_call_char]
    rintro ⟨h1, h2⟩
    have h3 := h2 0
    norm_num [boxUnit, boxFar] at h3
  · unfold overlapsSpec
    rw [decide_eq_true_eq]
    refine ⟨fun i => ?_, fun i => ?_⟩ <;> norm_num [boxUnit, boxFar]

/-- C2 (amended): the connectivity predicate returns true iff `minA ≤ maxB`
and `maxA ≥ minB` component-wise (aligning both boxes to their joint minimum
corner does not alter the comparisons over exact arithmetic); the result is
symmetric in the two boxes; and — contrary to the claim — it is completely
independent of the configured tolerance. Side-effect freedom is expressed by
the embedding as a pure function. -/
theorem overlap_call_spec (tol tol' : ℚ) (lhs rhs : BoundingBox) :
    (OverlapIntersection.call tol lhs rhs = true ↔
      ((∀ i, lhs.bmin i ≤ rhs.bmax i) ∧ (∀ i, rhs.bmin i ≤ lhs.bmax i)))
    ∧ OverlapIntersection.call tol lhs rhs = OverlapIntersection.call tol rhs lhs
    ∧ OverlapIntersection.call tol lhs rhs = OverlapIntersection.call tol' lhs rhs := by
  refine ⟨overlap_call_char tol lhs rhs, ?_, rfl⟩
  rw [Bool.eq_iff_iff, overlap_call_char, overlap_call_char]
  exact ⟨fun h => ⟨h.2, h.1⟩, fun h => ⟨h.2, h.1⟩⟩

/-! ## getBestParent (object_update_functor.cpp lines 205-233) -/

/-- Parent observation for one cluster member: `none` when the member has no
parent, otherwise the parent id paired with the parent's `is_active` flag
(`true` = active/volatile, `false` = archived/stable). -/
abbrev ParentObs := Option (Nat × Bool)

/-- The `active` vector accumulated by `getBestParent`: parents whose
`is_active` flag is set, in member iteration order. -/
def activeParentsOf (ps : List ParentObs) : List Nat :=
  ps.filterMap (fun p =>
    match p with
    | some q => if q.2 then some q.1 else none
    | none => none)

/-- The `archived` vector accumulated by `getBestParent`: parents whose
`is_active` flag is cleared, in member iteration order. -/
def archivedParentsOf (ps : List ParentObs) : List Nat :=
  ps.filterMap (fun p =>
    match p with
    | some q => if q.2 then none else some q.1
    | none => none)

/-- `getBestParent`: the front of the archived vector (paired with `false`)
when it is non-empty, else the front of the active vector (paired with
`true`), else none. -/
def getBestParent (ps : List ParentObs) : Option (Nat × Bool) :=
  match (archivedParentsOf ps).head? with
  | some a => some (a, false)
  | none =>
    match (activeParentsOf ps).head? with
    | some a => some (a, true)
    | none => none

/-- Modelled from the spec (§4.10): return the first present parent whose
flag is stable (`is_active = false`) if one exists, otherwise the first
volatile parent, otherwise none, scanning in member order. -/
def specBestParent (ps : List ParentObs) : Option (Nat × Bool) :=
  match (ps.filterMap id).find? (fun q => !q.2) with
  | some q => some (q.1, false)
  | none =>
    match (ps.filterMap id).find? (fun q => q.2) with
    | some q => some (q.1, true)
    | none => none

theorem archivedParentsOf_head? (ps : List ParentObs) :
    (archivedParentsOf ps).head? =
      ((ps.filterMap id).find? (fun q => !q.2)).map Prod.fst := by
  induction ps with
  | nil => rfl
  | cons p rest ih =>
    rcases p with _ | ⟨a, b⟩
    · simpa [archivedParentsOf, List.filterMap_cons] using ih
    · cases b
      · simp [archivedParentsOf, List.filterMap_cons, List.find?]
      · simpa [archivedParentsOf, List.filterMap_cons, List.find?] using ih

theorem activeParentsOf_head? (ps : List ParentObs) :
    (activeParentsOf ps).head? =
      ((ps.filterMap id).find? (fun q => q.2)).map Prod.fst := by
  induction ps with
  | nil => rfl
  | cons p rest ih =>
    rcases p with _ | ⟨a, b⟩
    · simpa [activeParentsOf, List.filterMap_cons] using ih
    · cases b
      · simpa [activeParentsOf, List.filterMap_cons, List.find?] using ih
      · simp [activeParentsOf, List.filterMap_cons, List.find?]

/-- C6: parent selection returns the first stable parent in member iteration
order when any member has a stable parent, otherwise the first volatile
parent, otherwise none; in particular, for member parents
`[volatile, stable, stable]` it returns the stable parent at index 1. -/
theorem getBestParent_first_stable :
    (∀ ps : List ParentObs, getBestParent ps = specBestParent ps)
    ∧ getBestParent [some (10, true), some (20, false), some (30, false)] =
        some (20, false) := by
  constructor
  · intro ps
    unfold getBestParent specBestParent
    rw [archivedParentsOf_head?, activeParentsOf_head?]
    cases hfs : (ps.filterMap id).find? (fun q => !q.2) with
    | none =>
      cases hfa : (ps.filterMap id).find? (fun q => q.2) with
      | none => rfl
      | some q => rfl
    | some q => rfl
  · rfl

/-! ## getMergedAttributes (object_update_functor.cpp lines 175-203) -/

/-- Attributes of one segment as read by `getMergedAttributes`: spatial
position, the semantic-feature matrix stored as its list of sample columns,
and the auxiliary Khronos fields (opaque to this core). -/
structure SegAttrs (n : ℕ) (Aux : Type) where
  position : Fin 3 → ℚ
  featureCols : List (Fin n → ℚ)
  aux : Aux

/-- Working attributes during a merge: after the initial
`semantic_feature.rowwise().mean()` reduction the feature is one column. -/
structure MergedAttrs (n : ℕ) (Aux : Type) where
  position : Fin 3 → ℚ
  feature : Fin n → ℚ
  aux : Aux

/-- `semantic_feature.rowwise().mean()`: per-row mean over sample columns. -/
def rowwiseMean {n : ℕ} (cols : List (Fin n → ℚ)) : Fin n → ℚ :=
  fun i => ((cols.map (fun c => c i)).sum) / cols.length

/-- One iteration of the merge loop: accumulate position and reduced feature
by summation, then apply the external `khronos::mergeObjectAttributes` rule.
Modelled from the spec (§4.8): the external rule merges only the auxiliary
fields, so it appears as an arbitrary function producing the new auxiliary
value from the other segment and the accumulated attributes. -/
def mergeStep {n : ℕ} {Aux : Type}
    (mergeAux : SegAttrs n Aux → MergedAttrs n Aux → Aux)
    (acc : MergedAttrs n Aux) (other : SegAttrs n Aux) : MergedAttrs n Aux :=
  let pos := fun i => acc.position i + other.position i
  let feat := fun i => acc.feature i + rowwiseMean other.featureCols i
  ⟨pos, feat, mergeAux other ⟨pos, feat, acc.aux⟩⟩

/-- `getMergedAttributes`: none on an empty cluster; otherwise clone the
first segment's attributes with the feature reduced to its row-wise mean,
fold the remaining segments through `mergeStep`, and finally divide position
and feature by the cluster size. -/
def getMergedAttributes {n : ℕ} {Aux : Type}
    (mergeAux : SegAttrs n Aux → MergedAttrs n Aux → Aux)
    (lookup : Nat → SegAttrs n Aux) : List Nat → Option (MergedAttrs n Aux)
  | [] => none
  | first :: rest =>
    let a0 := lookup first
    let start : MergedAttrs n Aux := ⟨a0.position, rowwiseMean a0.featureCols, a0.aux⟩
    let acc := (rest.map lookup).foldl (mergeStep mergeAux) start
    some ⟨fun i => acc.position i / (first :: rest).length,
          fun i => acc.feature i / (first :: rest).length, acc.aux⟩

/-- C8: merging the clusters `[x, y]` and `[y, x]` yields identical merged
position and identical merged semantic feature — the numeric averaging parts
of attribute merging are order-independent (the auxiliary fields follow the
external merge rule and may depend on order). -/
theorem mergedAttributes_pair_comm {n : ℕ} {Aux : Type}
    (mergeAux : SegAttrs n Aux → MergedAttrs n Aux → Aux)
    (lookup : Nat → SegAttrs n Aux) (x y : Nat) :
    (getMergedAttributes mergeAux lookup [x, y]).map MergedAttrs.position =
      (getMergedAttributes mergeAux lookup [y, x]).map MergedAttrs.position
    ∧ (getMergedAttributes mergeAux lookup [x, y]).map MergedAttrs.feature =
      (getMergedAttributes mergeAux lookup [y, x]).map MergedAttrs.feature := by
  constructor <;>
  · simp only [getMergedAttributes, mergeStep, List.map_cons, List.map_nil,
      List.foldl_cons, List.foldl_nil, Option.map, List.length_cons,
      List.length_nil]
    apply congrArg
    funext i
    push_cast
    ring

/-! ## The per-cycle state machine of ObjectUpdateFunctor (lines 85-358) -/

/-- The four phases of `ObjectUpdateFunctor::call`, in the roles the spec
names: anchor attachment (`updateActiveParents`), segment edge detection
(`addSegmentEdges`), component retirement (`clearActiveComponents`), and
connected-component discovery with clustering and materialization
(`detectObjects`). -/
inductive Phase where
  | anchorAttachment
  | edgeDetection
  | retirement
  | discoveryMaterialization
deriving DecidableEq, Repr

/-- `ComponentInfo` as tracked by the functor: the member segment ids and the
object ids the component has produced. -/
structure CompInfo where
  segments : List Nat
  objects : List Nat
deriving DecidableEq, Repr

/-- The functor's mutable state together with the slice of the shared scene
graph it touches: segment node ids, inserted edges, object node ids, segment
active flags, the `ignored_` set, the `node_to_component_` map, the
`components_` registry, the component-id pool, the `active_` set, the
monotone object-node-id counter, and an event log recording the order in
which the phases execute. -/
structure FState where
  graphSegments : List Nat
  graphEdges : List (Nat × Nat)
  graphObjects : List Nat
  ignored : List Nat
  segActive : Nat → Bool
  nodeToComp : Nat → Option Nat
  comps : List (Nat × CompInfo)
  compIds : IdTracker
  active : List Nat
  nextNodeId : Nat
  log : List Phase

/-- Fixed environment: the external scoring oracle on a segment's mean
feature (`tasks_->getBestScore`), the thresholds and distance cap from the
validated config, and the configured `IntersectionPolicy` edge checker on
segment attribute pairs. -/
structure UpdEnv where
  segScore : Nat → ℚ
  minSegmentScore : ℚ
  minObjectScore : ℚ
  edgeCheck : Nat → Nat → Bool
  neighborMaxDist : ℚ

/-- Per-cycle answers of the external collaborators: the groups returned by
`getConnectedComponents`, the clusters the clustering oracle produces for a
group, the relevance score of a cluster's merged feature, the parent
observation `getBestParent` derives from the graph for a cluster, each
active object's current parent state (`none` = no parent link, `some b` =
parent exists with `is_active = b`), and the nearest-neighbor answer (place
id and distance) for an object. -/
structure CycleInput where
  groups : List (List Nat)
  clustersOf : List Nat → List (List Nat)
  clusterScore : List Nat → ℚ
  bestParentOf : List Nat → Option (Nat × Bool)
  objParent : Nat → Option Bool
  nnResult : Nat → Option (Nat × ℚ)

/-- `isNodeActive` (lines 20-24): a segment is eligible for discovery iff it
is in neither `node_to_component_` nor the invalid (`ignored_`) set. -/
abbrev isNodeActive (s : FState) (n : Nat) : Prop :=
  s.nodeToComp n = none ∧ n ∉ s.ignored

/-- The defensive resync (lines 314-317): absorb every existing object node
id into the active set (std::set insert — duplicates ignored). -/
def resyncActive (active objs : List Nat) : List Nat :=
  objs.foldl (fun l o => if o ∈ l then l else l ++ [o]) active

/-- Result of processing one active object in `updateActiveParents`: whether
the object stays in the active set, the place-object edges inserted, and
whether the distance-cap warning fired. -/
structure ObjStepRes where
  keepActive : Bool
  newEdges : List (Nat × Nat)
  warned : Bool
deriving DecidableEq, Repr

/-- One iteration of the `updateActiveParents` loop (lines 321-357). With a
parent link: keep the object active iff the parent is still active, else
settle it. Without a parent link: if the nearest-neighbor query yields a
place, warn iff a positive distance cap is configured and the distance
reaches it, insert the place-object edge regardless, and drop the object
from the active set; keep it active when no neighbor is found. -/
def activeObjectStep (env : UpdEnv) (inp : CycleInput) (oid : Nat) : ObjStepRes :=
  match inp.objParent oid with
  | some parentActive => ⟨parentActive, [], false⟩
  | none =>
    match inp.nnResult oid with
    | none => ⟨true, [], false⟩
    | some pd =>
      ⟨false, [(pd.1, oid)],
        decide (0 < env.neighborMaxDist ∧ env.neighborMaxDist ≤ pd.2)⟩

/-- Fold step over the active set: collect the kept objects and the inserted
edges. -/
def activeFoldStep (env : UpdEnv) (inp : CycleInput)
    (acc : List Nat × List (Nat × Nat)) (oid : Nat) : List Nat × List (Nat × Nat) :=
  let r := activeObjectStep env inp oid
  (if r.keepActive then acc.1 ++ [oid] else acc.1, acc.2 ++ r.newEdges)

/-- `updateActiveParents` (lines 307-358): resync the active set with every
existing object node, then walk it, settling or re-anchoring each object. -/
def updateActiveParents (env : UpdEnv) (inp : CycleInput) (s : FState) : FState :=
  let act := resyncActive s.active s.graphObjects
  let r := act.foldl (activeFoldStep env inp) ([], [])
  { s with active := r.1, graphEdges := s.graphEdges ++ r.2,
           log := s.log ++ [Phase.anchorAttachment] }

/-- Accumulator of `addSegmentEdges`: the growing `ignored_` set, the
segment active flags, the graph edges, and the touched-component set. -/
structure EdgeAcc where
  ignored : List Nat
  segActive : Nat → Bool
  edges : List (Nat × Nat)
  touched : List Nat

/-- One iteration of the outer `addSegmentEdges` loop (lines 135-170) for
segment `nid`: skip when already ignored or already in a component; ignore
(and clear the active flag) when the best score is below the segment
threshold; otherwise insert an edge to every other segment passing the edge
checker (the inner loop runs over all segments with no eligibility filter)
and record the components of matched segments as touched. -/
def segEdgeStep (env : UpdEnv) (segs : List Nat) (ntc : Nat → Option Nat)
    (acc : EdgeAcc) (nid : Nat) : EdgeAcc :=
  if nid ∈ acc.ignored then acc
  else if (ntc nid).isSome then acc
  else if env.segScore nid < env.minSegmentScore then
    { acc with ignored := acc.ignored ++ [nid],
               segActive := fun m => if m = nid then false else acc.segActive m }
  else
    let others := segs.filter (fun o => decide (o ≠ nid) && env.edgeCheck nid o)
    { acc with edges := acc.edges ++ others.map (fun o => (nid, o)),
               touched := acc.touched ++ others.filterMap ntc }

/-- `addSegmentEdges` (lines 131-173): fold the outer loop over the segment
layer, returning the touched components and the updated state. -/
def addSegmentEdges (env : UpdEnv) (s : FState) : List Nat × FState :=
  let r := s.graphSegments.foldl (segEdgeStep env s.graphSegments s.nodeToComp)
    ⟨s.ignored, s.segActive, s.graphEdges, []⟩
  (r.touched,
   { s with ignored := r.ignored, segActive := r.segActive, graphEdges := r.edges,
            log := s.log ++ [Phase.edgeDetection] })

/-- `clearActiveComponents` (lines 108-129): retire every component whose id
is in the touched set — un-map its segments, remove its object nodes from
the graph (together with their incident edges) and from the active set, free
its id, and erase the registry entry. -/
def clearActiveComponents (touched : List Nat) (s : FState) : FState :=
  let ret := s.comps.filter (fun p => decide (p.1 ∈ touched))
  let retObj := fun o => ret.any (fun p => decide (o ∈ p.2.objects))
  { s with
    comps := s.comps.filter (fun p => decide (p.1 ∉ touched)),
    nodeToComp := fun n =>
      if ret.any (fun p => decide (n ∈ p.2.segments)) then none else s.nodeToComp n,
    graphObjects := s.graphObjects.filter (fun o => !retObj o),
    graphEdges := s.graphEdges.filter (fun e => !retObj e.1 && !retObj e.2),
    active := s.active.filter (fun o => !retObj o),
    compIds := ret.foldl (fun t p => t.markFree p.1) s.compIds,
    log := s.log ++ [Phase.retirement] }

/-- Accumulator for cluster materialization inside one new component. -/
structure MatAcc where
  graphObjects : List Nat
  active : List Nat
  edges : List (Nat × Nat)
  nextId : Nat
  objs : List Nat

/-- One cluster of a freshly clustered component (lines 267-301): skip empty
clusters (their merged attributes are none) and clusters scoring below the
object threshold; otherwise materialize the object node under the next
monotone id, record it in the component, and either link it to the selected
parent (staying active when the parent is itself still active) or leave it
parentless and active. -/
def clusterStep (env : UpdEnv) (inp : CycleInput) (acc : MatAcc)
    (cluster : List Nat) : MatAcc :=
  if cluster.isEmpty then acc
  else if inp.clusterScore cluster < env.minObjectScore then acc
  else
    let oid := acc.nextId
    let base : MatAcc :=
      ⟨acc.graphObjects ++ [oid], acc.active, acc.edges, oid + 1, acc.objs ++ [oid]⟩
    match inp.bestParentOf cluster with
    | none => { base with active := base.active ++ [oid] }
    | some pb =>
      { base with edges := base.edges ++ [(oid, pb.1)],
                  active := if pb.2 then base.active ++ [oid] else base.active }

/-- Processing of one connected group in `detectObjects` (lines 258-304):
draw a component id from the pool, assign every group member to it in
`node_to_component_`, materialize the oracle's clusters, and register the
component. -/
def processGroup (env : UpdEnv) (inp : CycleInput) (s : FState)
    (nodes : List Nat) : FState :=
  let p := s.compIds.next
  let m := (inp.clustersOf nodes).foldl (clusterStep env inp)
    ⟨s.graphObjects, s.active, s.graphEdges, s.nextNodeId, []⟩
  { s with
    compIds := p.2,
    nodeToComp := fun n => if n ∈ nodes then some p.1 else s.nodeToComp n,
    graphObjects := m.graphObjects,
    active := m.active,
    graphEdges := m.edges,
    nextNodeId := m.nextId,
    comps := s.comps ++ [(p.1, ⟨nodes, m.objs⟩)] }

/-- `detectObjects` (lines 235-305): fold `processGroup` over the groups the
connected-component search returned. -/
def detectObjects (env : UpdEnv) (inp : CycleInput) (s : FState) : FState :=
  let r := inp.groups.foldl (processGroup env inp) s
  { r with log := r.log ++ [Phase.discoveryMaterialization] }

/-- The state just before `detectObjects` within one `call` cycle:
`updateActiveParents`, then `addSegmentEdges`, then retirement of the
touched components. -/
def preDetect (env : UpdEnv) (inp : CycleInput) (s : FState) : FState :=
  let s1 := updateActiveParents env inp s
  let p := addSegmentEdges env s1
  clearActiveComponents p.1 p.2

/-- `ObjectUpdateFunctor::call` (lines 92-106): repair object-place links,
detect segment edges, retire the touched components, then discover, cluster
and materialize new components. The explicit merge map the source returns is
always empty and is omitted. -/
def callCycle (env : UpdEnv) (inp : CycleInput) (s : FState) : FState :=
  detectObjects env inp (preDetect env inp s)

/-- External arrival of a fresh segment node in the shared graph between
cycles (segments are created by the upstream pipeline with their active flag
set; graph node ids are unique). -/
def addExternalSegment (n : Nat) (s : FState) : FState :=
  if n ∈ s.graphSegments then s
  else { s with graphSegments := s.graphSegments ++ [n],
                segActive := fun m => if m = n then true else s.segActive m }

/-- Contract of the external `getConnectedComponents` call (hydra's graph
utilities) for the cycle about to run on state `s`: evaluated on the state
reached just before `detectObjects`, every returned group consists of
distinct eligible segments, and the groups are pairwise disjoint. -/
abbrev GroupsOK (env : UpdEnv) (inp : CycleInput) (s : FState) : Prop :=
  (∀ g ∈ inp.groups, g.Nodup ∧ ∀ n ∈ g, isNodeActive (preDetect env inp s) n)
  ∧ inp.groups.Pairwise (fun g₁ g₂ => ∀ n ∈ g₁, n ∉ g₂)

/-- Reachability: states reachable from `s` by external segment arrivals and
functor cycles whose connected-component oracle answers satisfy the
contract. -/
inductive Reaches (env : UpdEnv) : FState → FState → Prop where
  | refl (s : FState) : Reaches env s s
  | seg (n : Nat) {s t : FState} : Reaches env s t →
      Reaches env s (addExternalSegment n t)
  | cyc (inp : CycleInput) {s t : FState} : Reaches env s t →
      GroupsOK env inp t → Reaches env s (callCycle env inp t)

/-- The functor's state at construction: empty registries, the component-id
pool starting at zero, and no objects yet. -/
def initState : FState :=
  { graphSegments := [], graphEdges := [], graphObjects := [], ignored := [],
    segActive := fun _ => true, nodeToComp := fun _ => none, comps := [],
    compIds := IdTracker.mk0 0, active := [], nextNodeId := 0, log := [] }

/-! ## Phase ordering within one cycle (C1) -/

theorem processGroup_log (env : UpdEnv) (inp : CycleInput) (s : FState)
    (g : List Nat) : (processGroup env inp s g).log = s.log := rfl

theorem foldl_processGroup_log (env : UpdEnv) (inp : CycleInput)
    (gs : List (List Nat)) : ∀ s : FState,
    (gs.foldl (processGroup env inp) s).log = s.log := by
  induction gs with
  | nil => intro s; rfl
  | cons g rest ih =>
    intro s
    simp only [List.foldl_cons]
    rw [ih, processGroup_log]

theorem detectObjects_log (env : UpdEnv) (inp : CycleInput) (s : FState) :
    (detectObjects env inp s).log =
      (inp.groups.foldl (processGroup env inp) s).log ++
        [Phase.discoveryMaterialization] := rfl

/-- The log of one full cycle, as executed by the source's `call`. -/
theorem callCycle_log (env : UpdEnv) (inp : CycleInput) (s : FState) :
    (callCycle env inp s).log = s.log ++
      [Phase.anchorAttachment, Phase.edgeDetection, Phase.retirement,
       Phase.discoveryMaterialization] := by
  have h : (callCycle env inp s).log =
      (((s.log ++ [Phase.anchorAttachment]) ++ [Phase.edgeDetection]) ++
        [Phase.retirement]) ++ [Phase.discoveryMaterialization] := by
    show (detectObjects env inp (preDetect env inp s)).log = _
    rw [detectObjects_log, foldl_processGroup_log]
    rfl
  rw [h]
  simp [List.append_assoc]

/-- C1 (amended): within one cycle the phases execute in the order anchor
attachment, then segment edge detection, then component retirement, then
connected-component discovery with clustering and materialization.
Retirement therefore completes before discovery, clustering and
materialization, as claimed; but anchor attachment runs first — before
materialization, not after it (it attaches objects materialized in earlier
cycles). -/
theorem callCycle_phase_order (env : UpdEnv) (inp : CycleInput) (s : FState) :
    (callCycle env inp s).log = s.log ++
      [Phase.anchorAttachment, Phase.edgeDetection, Phase.retirement,
       Phase.discoveryMaterialization] :=
  callCycle_log env inp s

/-- A trivial environment for exercising the cycle ordering. -/
def envOrder : UpdEnv := ⟨fun _ => 1, 0, 0, fun _ _ => false, 0⟩

/-- A trivial cycle input: no groups, clusters, parents or neighbors. -/
def inpOrder : CycleInput :=
  ⟨[], fun _ => [], fun _ => 0, fun _ => none, fun _ => none, fun _ => none⟩

/-- C1 counterexample: already in the very first cycle the recorded phase
order is anchor attachment, edge detection, retirement, then
discovery/materialization — anchor attachment occurs at index 0, strictly
before the discovery/clustering/materialization phase at index 3,
contradicting the claim that materialization completes before anchor
attachment. -/
theorem callCycle_order_cex :
    (callCycle envOrder inpOrder initState).log =
      [Phase.anchorAttachment, Phase.edgeDetection, Phase.retirement,
       Phase.discoveryMaterialization]
    ∧ (callCycle envOrder inpOrder initState).log.indexOf
        Phase.anchorAttachment <
      (callCycle envOrder inpOrder initState).log.indexOf
        Phase.discoveryMaterialization := by
  constructor
  · rfl
  · decide

/-! ## Anchor attachment despite the distance cap (C4) -/

/-- C4: an active object with no parent link for which the nearest-neighbor
query finds an anchor is linked to that anchor and removed from the active
set even when a positive maximum-distance policy is configured and the found
anchor's distance reaches it — the cap only raises the warning flag; and for
every environment (hence every distance-cap configuration) the attachment
and removal outcome is the same. -/
theorem activeObjectStep_attach_despite_cap (env : UpdEnv) (inp : CycleInput)
    (oid pid : Nat) (dist : ℚ)
    (hp : inp.objParent oid = none)
    (hn : inp.nnResult oid = some (pid, dist))
    (hcap : 0 < env.neighborMaxDist)
    (hfar : env.neighborMaxDist ≤ dist) :
    activeObjectStep env inp oid = ⟨false, [(pid, oid)], true⟩
    ∧ ∀ env' : UpdEnv, (activeObjectStep env' inp oid).keepActive = false
        ∧ (activeObjectStep env' inp oid).newEdges = [(pid, oid)] := by
  constructor
  · unfold activeObjectStep
    rw [hp, hn]
    have hd : decide (0 < env.neighborMaxDist ∧ env.neighborMaxDist ≤ dist) = true :=
      decide_eq_true ⟨hcap, hfar⟩
    simp [hd]
  · intro env'
    unfold activeObjectStep
    rw [hp, hn]
    exact ⟨rfl, rfl⟩

/-- Environment with a positive distance cap of 5. -/
def envCap : UpdEnv := ⟨fun _ => 1, 0, 0, fun _ _ => false, 5⟩

/-- Cycle input whose nearest-neighbor query answers place 42 at distance 9
and reports no existing parent. -/
def inpCap : CycleInput :=
  ⟨[], fun _ => [], fun _ => 0, fun _ => none, fun _ => none,
   fun _ => some (42, 9)⟩

/-- Witness for C4: object 7, anchor 42 at distance 9 ≥ cap 5 — attached,
removed from the active set, and warned. -/
theorem activeObjectStep_attach_despite_cap_witness :
    activeObjectStep envCap inpCap 7 = ⟨false, [(42, 7)], true⟩ :=
  (activeObjectStep_attach_despite_cap envCap inpCap 7 42 9 rfl rfl
    (by norm_num [envCap]) (by norm_num [envCap])).1

/-! ## Cross-cycle invariants (C3, C7, C9) -/

/-- The component ids currently registered. -/
def compKeys (s : FState) : List Nat := s.comps.map Prod.fst

/-- The inductive invariant the functor maintains across phases: registry
keys are distinct, live ids stay below the pool counter and are not queued
as free, the free queue is duplicate-free and below the counter, the
`node_to_component_` map and the registry's member lists agree, ignored
segments are unmapped graph segments with a cleared active flag, and the
active set only holds existing object nodes. -/
structure Inv (s : FState) : Prop where
  keysNodup : (compKeys s).Nodup
  keysLt : ∀ c ∈ compKeys s, c < s.compIds.idx
  keysUnused : ∀ c ∈ compKeys s, c ∉ s.compIds.unused
  unusedLt : ∀ u ∈ s.compIds.unused, u < s.compIds.idx
  unusedNodup : s.compIds.unused.Nodup
  mapComp : ∀ n c, s.nodeToComp n = some c ↔
    ∃ ci, (c, ci) ∈ s.comps ∧ n ∈ ci.segments
  ignMap : ∀ n ∈ s.ignored, s.nodeToComp n = none
  ignFlag : ∀ n ∈ s.ignored, s.segActive n = false
  ignSub : ∀ n ∈ s.ignored, n ∈ s.graphSegments
  activeSub : ∀ o ∈ s.active, o ∈ s.graphObjects

theorem inv_init : Inv initState := by
  constructor <;> simp [initState, compKeys, IdTracker.mk0]

theorem inv_log {s : FState} (L : List Phase) (h : Inv s) :
    Inv { s with log := L } :=
  ⟨h.keysNodup, h.keysLt, h.keysUnused, h.unusedLt, h.unusedNodup, h.mapComp,
   h.ignMap, h.ignFlag, h.ignSub, h.activeSub⟩

theorem inv_addExternalSegment (n : Nat) (s : FState) (h : Inv s) :
    Inv (addExternalSegment n s) := by
  unfold addExternalSegment
  split
  · exact h
  · rename_i hnotin
    refine ⟨h.keysNodup, h.keysLt, h.keysUnused, h.unusedLt, h.unusedNodup,
      h.mapComp, h.ignMap, ?_, ?_, h.activeSub⟩
    · intro m hm
      have hms : m ∈ s.graphSegments := h.ignSub m hm
      have hmn : m ≠ n := fun he => hnotin (he ▸ hms)
      simpa [hmn] using h.ignFlag m hm
    · intro m hm
      exact List.mem_append_left _ (h.ignSub m hm)

theorem foldl_insert_mem : ∀ (objs act : List Nat) (o : Nat),
    o ∈ objs.foldl (fun l x => if x ∈ l then l else l ++ [x]) act →
    o ∈ act ∨ o ∈ objs := by
  intro objs
  induction objs with
  | nil => exact fun act o h => Or.inl h
  | cons a rest ih =>
    intro act o h
    rw [List.foldl_cons] at h
    rcases ih _ o h with hacc | hrest
    · by_cases hmem : a ∈ act
      · rw [if_pos hmem] at hacc
        exact Or.inl hacc
      · rw [if_neg hmem] at hacc
        rcases List.mem_append.mp hacc with h1 | h2
        · exact Or.inl h1
        · exact Or.inr (List.mem_cons.mpr (Or.inl (List.mem_singleton.mp h2)))
    · exact Or.inr (List.mem_cons_of_mem a hrest)

theorem activeFold_mem (env : UpdEnv) (inp : CycleInput) :
    ∀ (l : List Nat) (acc : List Nat × List (Nat × Nat)) (o : Nat),
      o ∈ (l.foldl (activeFoldStep env inp) acc).1 → o ∈ acc.1 ∨ o ∈ l := by
  intro l
  induction l with
  | nil => exact fun acc o h => Or.inl h
  | cons a rest ih =>
    intro acc o h
    rw [List.foldl_cons] at h
    rcases ih _ o h with hacc | hrest
    · simp only [activeFoldStep] at hacc
      split at hacc
      · rcases List.mem_append.mp hacc with h1 | h2
        · exact Or.inl h1
        · exact Or.inr (List.mem_cons.mpr (Or.inl (List.mem_singleton.mp h2)))
      · exact Or.inl hacc
    · exact Or.inr (List.mem_cons_of_mem a hrest)

theorem inv_updateActiveParents (env : UpdEnv) (inp : CycleInput) (s : FState)
    (h : Inv s) : Inv (updateActiveParents env inp s) := by
  refine ⟨h.keysNodup, h.keysLt, h.keysUnused, h.unusedLt, h.unusedNodup,
    h.mapComp, h.ignMap, h.ignFlag, h.ignSub, ?_⟩
  intro o ho
  have h1 := activeFold_mem env inp (resyncActive s.active s.graphObjects)
    ([], []) o ho
  rcases h1 with h1 | h1
  · cases h1
  · rcases foldl_insert_mem s.graphObjects s.active o h1 with h2 | h2
    · exact h.activeSub o h2
    · exact h2

theorem segEdgeStep_out (env : UpdEnv) (segs : List Nat) (ntc : Nat → Option Nat)
    (acc : EdgeAcc) (nid : Nat) :
    ((segEdgeStep env segs ntc acc nid).ignored = acc.ignored
      ∧ (segEdgeStep env segs ntc acc nid).segActive = acc.segActive)
    ∨ ((segEdgeStep env segs ntc acc nid).ignored = acc.ignored ++ [nid]
      ∧ ntc nid = none
      ∧ (segEdgeStep env segs ntc acc nid).segActive
          = fun m => if m = nid then false else acc.segActive m) := by
  unfold segEdgeStep
  by_cases h1 : nid ∈ acc.ignored
  · rw [if_pos h1]
    exact Or.inl ⟨rfl, rfl⟩
  · rw [if_neg h1]
    rcases hntc : ntc nid with _ | c
    · rw [if_neg (by simp)]
      by_cases h3 : env.segScore nid < env.minSegmentScore
      · rw [if_pos h3]
        exact Or.inr ⟨rfl, rfl, rfl⟩
      · rw [if_neg h3]
        exact Or.inl ⟨rfl, rfl⟩
    · rw [if_pos (by simp)]
      exact Or.inl ⟨rfl, rfl⟩

theorem segEdgeStep_ignored_sub (env : UpdEnv) (segs : List Nat)
    (ntc : Nat → Option Nat) (acc : EdgeAcc) (nid : Nat) :
    ∀ m ∈ acc.ignored, m ∈ (segEdgeStep env segs ntc acc nid).ignored := by
  intro m hm
  rcases segEdgeStep_out env segs ntc acc nid with ⟨h1, _⟩ | ⟨h1, _, _⟩
  · rw [h1]
    exact hm
  · rw [h1]
    exact List.mem_append_left _ hm

theorem segEdge_fold_mono (env : UpdEnv) (segs : List Nat)
    (ntc : Nat → Option Nat) : ∀ (l : List Nat) (acc : EdgeAcc),
    ∀ m ∈ acc.ignored, m ∈ (l.foldl (segEdgeStep env segs ntc) acc).ignored := by
  intro l
  induction l with
  | nil => exact fun acc m hm => hm
  | cons a rest ih =>
    intro acc m hm
    rw [List.foldl_cons]
    exact ih _ m (segEdgeStep_ignored_sub env segs ntc acc a m hm)

theorem segEdge_fold_ign_src (env : UpdEnv) (segs : List Nat)
    (ntc : Nat → Option Nat) : ∀ (l : List Nat) (acc : EdgeAcc),
    ∀ m ∈ (l.foldl (segEdgeStep env segs ntc) acc).ignored,
      m ∈ acc.ignored ∨ (m ∈ l ∧ ntc m = none) := by
  intro l
  induction l with
  | nil => exact fun acc m hm => Or.inl hm
  | cons a rest ih =>
    intro acc m hm
    rw [List.foldl_cons] at hm
    rcases ih _ m hm with hmem | ⟨hl, hn⟩
    · rcases segEdgeStep_out env segs ntc acc a with ⟨h1, _⟩ | ⟨h1, h2, _⟩
      · rw [h1] at hmem
        exact Or.inl hmem
      · rw [h1] at hmem
        rcases List.mem_append.mp hmem with hmem' | hmem'
        · exact Or.inl hmem'
        · have hma : m = a := List.mem_singleton.mp hmem'
          exact Or.inr ⟨hma ▸ List.mem_cons_self a rest, hma ▸ h2⟩
    · exact Or.inr ⟨List.mem_cons_of_mem a hl, hn⟩

theorem segEdge_fold_flag (env : UpdEnv) (segs : List Nat)
    (ntc : Nat → Option Nat) : ∀ (l : List Nat) (acc : EdgeAcc),
    (∀ m ∈ acc.ignored, acc.segActive m = false) →
    ∀ m ∈ (l.foldl (segEdgeStep env segs ntc) acc).ignored,
      (l.foldl (segEdgeStep env segs ntc) acc).segActive m = false := by
  intro l
  induction l with
  | nil => exact fun acc hflag => hflag
  | cons a rest ih =>
    intro acc hflag
    rw [List.foldl_cons]
    apply ih
    intro m hm
    rcases segEdgeStep_out env segs ntc acc a with ⟨h1, h2⟩ | ⟨h1, _, h3⟩
    · rw [h1] at hm
      rw [h2]
      exact hflag m hm
    · rw [h1] at hm
      simp only [h3]
      rcases List.mem_append.mp hm with hmem | hmem
      · by_cases hma : m = a
        · rw [if_pos hma]
        · rw [if_neg hma]
          exact hflag m hmem
      · rw [if_pos (List.mem_singleton.mp hmem)]

theorem segEdge_fold_trigger (env : UpdEnv) (segs : List Nat)
    (ntc : Nat → Option Nat) : ∀ (l : List Nat) (acc : EdgeAcc) (n : Nat),
    n ∈ l →
    (n ∈ acc.ignored ∨ (ntc n = none ∧ env.segScore n < env.minSegmentScore)) →
    n ∈ (l.foldl (segEdgeStep env segs ntc) acc).ignored := by
  intro l
  induction l with
  | nil =>
    intro acc n hn
    cases hn
  | cons a rest ih =>
    intro acc n hn hcond
    rw [List.foldl_cons]
    rcases List.mem_cons.mp hn with rfl | hrest
    · rcases hcond with hmem | ⟨hnone, hsc⟩
      · exact segEdge_fold_mono env segs ntc rest _ n
          (segEdgeStep_ignored_sub env segs ntc acc n n hmem)
      · have hstep : n ∈ (segEdgeStep env segs ntc acc n).ignored := by
          unfold segEdgeStep
          by_cases h1 : n ∈ acc.ignored
          · rw [if_pos h1]
            exact h1
          · rw [if_neg h1, hnone, if_neg (by simp), if_pos hsc]
            exact List.mem_append_right _ (List.mem_singleton.mpr rfl)
        exact segEdge_fold_mono env segs ntc rest _ n hstep
    · apply ih _ n hrest
      rcases hcond with hmem | hc
      · exact Or.inl (segEdgeStep_ignored_sub env segs ntc acc a n hmem)
      · exact Or.inr hc

theorem inv_addSegmentEdges (env : UpdEnv) (s : FState) (h : Inv s) :
    Inv (addSegmentEdges env s).2 := by
  refine ⟨h.keysNodup, h.keysLt, h.keysUnused, h.unusedLt, h.unusedNodup,
    h.mapComp, ?_, ?_, ?_, h.activeSub⟩
  · intro m hm
    rcases segEdge_fold_ign_src env s.graphSegments s.nodeToComp s.graphSegments
      ⟨s.ignored, s.segActive, s.graphEdges, []⟩ m hm with hold | ⟨_, hnone⟩
    · exact h.ignMap m hold
    · exact hnone
  · intro m hm
    exact segEdge_fold_flag env s.graphSegments s.nodeToComp s.graphSegments
      ⟨s.ignored, s.segActive, s.graphEdges, []⟩ h.ignFlag m hm
  · intro m hm
    rcases segEdge_fold_ign_src env s.graphSegments s.nodeToComp s.graphSegments
      ⟨s.ignored, s.segActive, s.graphEdges, []⟩ m hm with hold | ⟨hseg, _⟩
    · exact h.ignSub m hold
    · exact hseg

theorem eq_of_keysNodup {l : List (Nat × CompInfo)} (h : (l.map Prod.fst).Nodup)
    {p q : Nat × CompInfo} (hp : p ∈ l) (hq : q ∈ l) (hfst : p.1 = q.1) :
    p = q := by
  induction l with
  | nil => cases hp
  | cons a rest ih =>
    rw [List.map_cons, List.nodup_cons] at h
    rcases List.mem_cons.mp hp with hpe | hp'
    · rcases List.mem_cons.mp hq with hqe | hq'
      · rw [hpe, hqe]
      · exfalso
        apply h.1
        rw [hpe] at hfst
        rw [hfst]
        exact List.mem_map_of_mem Prod.fst hq'
    · rcases List.mem_cons.mp hq with hqe | hq'
      · exfalso
        apply h.1
        rw [hqe] at hfst
        rw [← hfst]
        exact List.mem_map_of_mem Prod.fst hp'
      · exact ih h.2 hp' hq'

theorem foldMarkFree_spec : ∀ (l : List (Nat × CompInfo)) (t : IdTracker),
    (∀ p ∈ l, p.1 < t.idx) →
    (l.foldl (fun t p => t.markFree p.1) t).idx = t.idx
    ∧ (l.foldl (fun t p => t.markFree p.1) t).unused
        = t.unused ++ l.map Prod.fst := by
  intro l
  induction l with
  | nil =>
    intro t _
    exact ⟨rfl, by simp⟩
  | cons a rest ih =>
    intro t hlt
    have ha : a.1 < t.idx := hlt a (List.mem_cons_self a rest)
    have hmf : t.markFree a.1 = ⟨t.idx, t.unused ++ [a.1]⟩ := by
      unfold IdTracker.markFree
      rw [if_pos ha]
    rw [List.foldl_cons, hmf]
    have hrest : ∀ p ∈ rest, p.1 < (⟨t.idx, t.unused ++ [a.1]⟩ : IdTracker).idx :=
      fun p hp => hlt p (List.mem_cons_of_mem a hp)
    obtain ⟨h1, h2⟩ := ih ⟨t.idx, t.unused ++ [a.1]⟩ hrest
    refine ⟨h1, ?_⟩
    rw [h2]
    simp [List.append_assoc]

theorem inv_clearActiveComponents (touched : List Nat) (s : FState) (h : Inv s) :
    Inv (clearActiveComponents touched s) := by
  have hmr : ∀ p : Nat × CompInfo,
      p ∈ s.comps.filter (fun p => decide (p.1 ∈ touched)) ↔
        p ∈ s.comps ∧ p.1 ∈ touched := by
    intro p
    rw [List.mem_filter]
    simp
  have hmk : ∀ p : Nat × CompInfo,
      p ∈ s.comps.filter (fun p => decide (p.1 ∉ touched)) ↔
        p ∈ s.comps ∧ p.1 ∉ touched := by
    intro p
    rw [List.mem_filter]
    simp
  have hretlt : ∀ p ∈ s.comps.filter (fun p => decide (p.1 ∈ touched)),
      p.1 < s.compIds.idx := by
    intro p hp
    exact h.keysLt p.1 (List.mem_map_of_mem Prod.fst ((hmr p).mp hp).1)
  obtain ⟨hidx, hunused⟩ := foldMarkFree_spec
    (s.comps.filter (fun p => decide (p.1 ∈ touched))) s.compIds hretlt
  have hkeys_ret : ((s.comps.filter (fun p => decide (p.1 ∈ touched))).map
      Prod.fst).Nodup :=
    ((List.filter_sublist s.comps).map Prod.fst).nodup h.keysNodup
  refine ⟨?_, ?_, ?_, ?_, ?_, ?_, ?_, h.ignFlag, h.ignSub, ?_⟩
  · show ((s.comps.filter (fun p => decide (p.1 ∉ touched))).map Prod.fst).Nodup
    exact ((List.filter_sublist s.comps).map Prod.fst).nodup h.keysNodup
  · intro c hc
    simp only [clearActiveComponents, compKeys] at hc ⊢
    rw [hidx]
    obtain ⟨p, hp, hpe⟩ := List.mem_map.mp hc
    exact hpe ▸ h.keysLt p.1 (List.mem_map_of_mem Prod.fst ((hmk p).mp hp).1)
  · intro c hc
    simp only [clearActiveComponents, compKeys] at hc ⊢
    rw [hunused]
    obtain ⟨p, hp, hpe⟩ := List.mem_map.mp hc
    obtain ⟨hpc, hpt⟩ := (hmk p).mp hp
    intro hmem
    rcases List.mem_append.mp hmem with hmem | hmem
    · exact h.keysUnused c (hpe ▸ List.mem_map_of_mem Prod.fst hpc) hmem
    · obtain ⟨q, hq, hqe⟩ := List.mem_map.mp hmem
      obtain ⟨hqc, hqt⟩ := (hmr q).mp hq
      have hqp : q = p := eq_of_keysNodup h.keysNodup hqc hpc (by rw [hqe, hpe])
      exact hpt (hqp ▸ hqt)
  · intro u hu
    simp only [clearActiveComponents] at hu ⊢
    rw [hunused] at hu
    rw [hidx]
    rcases List.mem_append.mp hu with hmem | hmem
    · exact h.unusedLt u hmem
    · obtain ⟨q, hq, hqe⟩ := List.mem_map.mp hmem
      exact hqe ▸ hretlt q hq
  · show (clearActiveComponents touched s).compIds.unused.Nodup
    simp only [clearActiveComponents]
    rw [hunused]
    refine h.unusedNodup.append hkeys_ret ?_
    intro a ha hb
    obtain ⟨q, hq, hqe⟩ := List.mem_map.mp hb
    exact h.keysUnused a (hqe ▸ List.mem_map_of_mem Prod.fst ((hmr q).mp hq).1) ha
  · intro n c
    simp only [clearActiveComponents]
    constructor
    · intro hsome
      by_cases hin : (s.comps.filter (fun p => decide (p.1 ∈ touched))).any
          (fun p => decide (n ∈ p.2.segments)) = true
      · rw [if_pos hin] at hsome
        cases hsome
      · rw [if_neg hin] at hsome
        obtain ⟨ci, hci, hnci⟩ := (h.mapComp n c).mp hsome
        refine ⟨ci, (hmk (c, ci)).mpr ⟨hci, fun hct => ?_⟩, hnci⟩
        apply hin
        rw [List.any_eq_true]
        exact ⟨(c, ci), (hmr (c, ci)).mpr ⟨hci, hct⟩, decide_eq_true hnci⟩
    · rintro ⟨ci, hci, hnci⟩
      obtain ⟨hcic, hcit⟩ := (hmk (c, ci)).mp hci
      have hold : s.nodeToComp n = some c := (h.mapComp n c).mpr ⟨ci, hcic, hnci⟩
      have hnotin : ¬((s.comps.filter (fun p => decide (p.1 ∈ touched))).any
          (fun p => decide (n ∈ p.2.segments)) = true) := by
        intro hany
        obtain ⟨q, hq, hqd⟩ := List.any_eq_true.mp hany
        obtain ⟨hqc, hqt⟩ := (hmr q).mp hq
        have hnq : n ∈ q.2.segments := of_decide_eq_true hqd
        have hq_some : s.nodeToComp n = some q.1 :=
          (h.mapComp n q.1).mpr ⟨q.2, hqc, hnq⟩
        rw [hold] at hq_some
        exact hcit ((Option.some.inj hq_some).symm ▸ hqt)
      rw [if_neg hnotin]
      exact hold
  · intro m hm
    simp only [clearActiveComponents] at hm ⊢
    by_cases hin : ((s.comps.filter (fun p => decide (p.1 ∈ touched))).any
        (fun p => decide (m ∈ p.2.segments))) = true
    · rw [if_pos hin]
    · rw [if_neg hin]
      exact h.ignMap m hm
  · intro o ho
    simp only [clearActiveComponents] at ho ⊢
    rw [List.mem_filter] at ho ⊢
    exact ⟨h.activeSub o ho.1, ho.2⟩

theorem next_fresh (t : IdTracker) (keys : List Nat)
    (hkLt : ∀ c ∈ keys, c < t.idx) (hkU : ∀ c ∈ keys, c ∉ t.unused)
    (huLt : ∀ u ∈ t.unused, u < t.idx) (huN : t.unused.Nodup) :
    (t.next.1 ∉ keys)
    ∧ t.next.1 < t.next.2.idx
    ∧ t.idx ≤ t.next.2.idx
    ∧ (∀ u ∈ t.next.2.unused, u ∈ t.unused)
    ∧ t.next.2.unused.Nodup
    ∧ t.next.1 ∉ t.next.2.unused
    ∧ (∀ u ∈ t.next.2.unused, u < t.next.2.idx) := by
  rcases hq : t.unused with _ | ⟨u, rest⟩
  · have hnext : t.next = (t.idx, ⟨t.idx + 1, []⟩) := by
      unfold IdTracker.next
      rw [hq]
    rw [hnext]
    refine ⟨fun hmem => absurd (hkLt _ hmem) (lt_irrefl _), Nat.lt_succ_self _,
      Nat.le_succ _, ?_, ?_, ?_, ?_⟩ <;> simp
  · have hnext : t.next = (u, ⟨t.idx, rest⟩) := by
      unfold IdTracker.next
      rw [hq]
    have huN' : (u :: rest).Nodup := hq ▸ huN
    have hu_mem : u ∈ t.unused := by
      rw [hq]
      exact List.mem_cons_self u rest
    rw [hnext]
    refine ⟨fun hmem => hkU u hmem hu_mem, huLt u hu_mem, le_refl _, ?_, ?_, ?_, ?_⟩
    · intro v hv
      exact List.mem_cons_of_mem u hv
    · exact (List.nodup_cons.mp huN').2
    · exact (List.nodup_cons.mp huN').1
    · intro v hv
      exact huLt v (by rw [hq]; exact List.mem_cons_of_mem u hv)

theorem clusterStep_out (env : UpdEnv) (inp : CycleInput) (acc : MatAcc)
    (c : List Nat) :
    (clusterStep env inp acc c = acc)
    ∨ ((clusterStep env inp acc c).graphObjects = acc.graphObjects ++ [acc.nextId]
        ∧ ((clusterStep env inp acc c).active = acc.active
            ∨ (clusterStep env inp acc c).active = acc.active ++ [acc.nextId])) := by
  unfold clusterStep
  by_cases h1 : c.isEmpty = true
  · rw [if_pos h1]
    exact Or.inl rfl
  · rw [if_neg h1]
    by_cases h2 : inp.clusterScore c < env.minObjectScore
    · rw [if_pos h2]
      exact Or.inl rfl
    · rw [if_neg h2]
      rcases hbp : inp.bestParentOf c with _ | pb
      · exact Or.inr ⟨rfl, Or.inr rfl⟩
      · dsimp only
        by_cases hb : pb.2 = true
        · rw [if_pos hb]
          exact Or.inr ⟨rfl, Or.inr rfl⟩
        · rw [if_neg hb]
          exact Or.inr ⟨rfl, Or.inl rfl⟩

theorem matFold_actSub (env : UpdEnv) (inp : CycleInput) :
    ∀ (cls : List (List Nat)) (acc : MatAcc),
      (∀ o ∈ acc.active, o ∈ acc.graphObjects) →
      ∀ o ∈ (cls.foldl (clusterStep env inp) acc).active,
        o ∈ (cls.foldl (clusterStep env inp) acc).graphObjects := by
  intro cls
  induction cls with
  | nil => exact fun acc hsub => hsub
  | cons c rest ih =>
    intro acc hsub
    rw [List.foldl_cons]
    apply ih
    rcases clusterStep_out env inp acc c with heq | ⟨hgo, hact⟩
    · rw [heq]
      exact hsub
    · intro o ho
      rw [hgo]
      rcases hact with ha | ha
      · rw [ha] at ho
        exact List.mem_append_left _ (hsub o ho)
      · rw [ha] at ho
        rcases List.mem_append.mp ho with h3 | h3
        · exact List.mem_append_left _ (hsub o h3)
        · exact List.mem_append_right _ h3

theorem processGroup_map_none (env : UpdEnv) (inp : CycleInput) (s : FState)
    (nodes : List Nat) (m : Nat) (hm : s.nodeToComp m = none) (hnm : m ∉ nodes) :
    (processGroup env inp s nodes).nodeToComp m = none := by
  simp only [processGroup]
  rw [if_neg hnm]
  exact hm

theorem processGroup_ignored (env : UpdEnv) (inp : CycleInput) (s : FState)
    (nodes : List Nat) : (processGroup env inp s nodes).ignored = s.ignored := rfl

theorem inv_processGroup (env : UpdEnv) (inp : CycleInput) (s : FState)
    (nodes : List Nat) (h : Inv s)
    (helig : ∀ n ∈ nodes, s.nodeToComp n = none ∧ n ∉ s.ignored) :
    Inv (processGroup env inp s nodes) := by
  obtain ⟨hfresh, hlt, hmono, hsub, hnodup, hnotin, hulti⟩ :=
    next_fresh s.compIds (compKeys s) h.keysLt h.keysUnused h.unusedLt h.unusedNodup
  refine ⟨?_, ?_, ?_, ?_, ?_, ?_, ?_, h.ignFlag, h.ignSub, ?_⟩
  · show ((s.comps ++ _).map Prod.fst).Nodup
    rw [List.map_append]
    refine List.Nodup.append h.keysNodup (List.nodup_singleton _) ?_
    intro a ha hb
    simp only [List.map_cons, List.map_nil, List.mem_singleton] at hb
    exact hfresh (hb ▸ ha)
  · intro c hc
    simp only [processGroup, compKeys, List.map_append, List.map_cons,
      List.map_nil] at hc ⊢
    rcases List.mem_append.mp hc with hold | hnew
    · exact lt_of_lt_of_le (h.keysLt c hold) hmono
    · rw [List.mem_singleton] at hnew
      exact hnew ▸ hlt
  · intro c hc
    simp only [processGroup, compKeys, List.map_append, List.map_cons,
      List.map_nil] at hc ⊢
    rcases List.mem_append.mp hc with hold | hnew
    · exact fun hmem => h.keysUnused c hold (hsub c hmem)
    · rw [List.mem_singleton] at hnew
      exact hnew ▸ hnotin
  · intro u hu
    exact hulti u hu
  · exact hnodup
  · intro n c
    simp only [processGroup]
    constructor
    · intro hsome
      by_cases hn : n ∈ nodes
      · rw [if_pos hn] at hsome
        injection hsome with hc
        subst hc
        exact ⟨_, List.mem_append_right _ (List.mem_singleton.mpr rfl), hn⟩
      · rw [if_neg hn] at hsome
        obtain ⟨ci, hci, hnci⟩ := (h.mapComp n c).mp hsome
        exact ⟨ci, List.mem_append_left _ hci, hnci⟩
    · rintro ⟨ci, hci, hnci⟩
      rcases List.mem_append.mp hci with hold | hnew
      · have hns : s.nodeToComp n = some c := (h.mapComp n c).mpr ⟨ci, hold, hnci⟩
        have hn : n ∉ nodes := by
          intro hmem
          rw [(helig n hmem).1] at hns
          cases hns
        rw [if_neg hn]
        exact hns
      · rw [List.mem_singleton] at hnew
        have hc : c = s.compIds.next.1 := congrArg Prod.fst hnew
        have hcie : ci = ⟨nodes,
            ((inp.clustersOf nodes).foldl (clusterStep env inp)
              ⟨s.graphObjects, s.active, s.graphEdges, s.nextNodeId, []⟩).objs⟩ :=
          congrArg Prod.snd hnew
        have hn : n ∈ nodes := by
          have h2 := hcie ▸ hnci
          exact h2
        rw [if_pos hn, hc]
  · intro m hm
    simp only [processGroup]
    have hn : m ∉ nodes := fun hmem => (helig m hmem).2 hm
    rw [if_neg hn]
    exact h.ignMap m hm
  · intro o ho
    exact matFold_actSub env inp (inp.clustersOf nodes)
      ⟨s.graphObjects, s.active, s.graphEdges, s.nextNodeId, []⟩ h.activeSub o ho

theorem detect_fold_inv (env : UpdEnv) (inp : CycleInput) :
    ∀ (gs : List (List Nat)) (s : FState), Inv s →
    (∀ g ∈ gs, ∀ n ∈ g, s.nodeToComp n = none ∧ n ∉ s.ignored) →
    gs.Pairwise (fun g₁ g₂ => ∀ n ∈ g₁, n ∉ g₂) →
    Inv (gs.foldl (processGroup env inp) s) := by
  intro gs
  induction gs with
  | nil => exact fun s h _ _ => h
  | cons g rest ih =>
    intro s h helig hpw
    rw [List.foldl_cons]
    have hg := helig g (List.mem_cons_self g rest)
    apply ih
    · exact inv_processGroup env inp s g h hg
    · intro g' hg' n hn
      have hdisj : ∀ m ∈ g, m ∉ g' := (List.pairwise_cons.mp hpw).1 g' hg'
      have hng : n ∉ g := fun hmem => hdisj n hmem hn
      have he := helig g' (List.mem_cons_of_mem g hg') n hn
      refine ⟨processGroup_map_none env inp s g n he.1 hng, ?_⟩
      rw [processGroup_ignored]
      exact he.2
    · exact (List.pairwise_cons.mp hpw).2

theorem inv_preDetect (env : UpdEnv) (inp : CycleInput) (s : FState) (h : Inv s) :
    Inv (preDetect env inp s) :=
  inv_clearActiveComponents
    (addSegmentEdges env (updateActiveParents env inp s)).1
    (addSegmentEdges env (updateActiveParents env inp s)).2
    (inv_addSegmentEdges env (updateActiveParents env inp s)
      (inv_updateActiveParents env inp s h))

theorem inv_callCycle (env : UpdEnv) (inp : CycleInput) (s : FState) (h : Inv s)
    (hg : GroupsOK env inp s) : Inv (callCycle env inp s) := by
  have hpre : Inv (preDetect env inp s) := inv_preDetect env inp s h
  have hfold : Inv (inp.groups.foldl (processGroup env inp) (preDetect env inp s)) :=
    detect_fold_inv env inp inp.groups (preDetect env inp s) hpre
      (fun g hgm n hn => (hg.1 g hgm).2 n hn) hg.2
  exact inv_log _ hfold

theorem inv_reaches (env : UpdEnv) {s t : FState} (hr : Reaches env s t) :
    Inv s → Inv t := by
  induction hr with
  | refl s' => exact fun h => h
  | seg n hr ih => exact fun h => inv_addExternalSegment n _ (ih h)
  | cyc inp hr hg ih => exact fun h => inv_callCycle env inp _ (ih h) hg

theorem addExternalSegment_ignored (n : Nat) (s : FState) :
    (addExternalSegment n s).ignored = s.ignored := by
  unfold addExternalSegment
  split <;> rfl

theorem detect_fold_ignored (env : UpdEnv) (inp : CycleInput) :
    ∀ (gs : List (List Nat)) (x : FState),
    (gs.foldl (processGroup env inp) x).ignored = x.ignored := by
  intro gs
  induction gs with
  | nil => exact fun x => rfl
  | cons g rest ih =>
    intro x
    rw [List.foldl_cons, ih, processGroup_ignored]

theorem callCycle_ignored (env : UpdEnv) (inp : CycleInput) (s : FState) :
    (callCycle env inp s).ignored
      = (addSegmentEdges env (updateActiveParents env inp s)).2.ignored := by
  show (inp.groups.foldl (processGroup env inp) (preDetect env inp s)).ignored = _
  rw [detect_fold_ignored]
  rfl

theorem cycle_ignored_mono (env : UpdEnv) (inp : CycleInput) (s : FState) :
    ∀ n ∈ s.ignored, n ∈ (callCycle env inp s).ignored := by
  intro n hn
  rw [callCycle_ignored]
  exact segEdge_fold_mono env (updateActiveParents env inp s).graphSegments
    (updateActiveParents env inp s).nodeToComp
    (updateActiveParents env inp s).graphSegments
    ⟨(updateActiveParents env inp s).ignored,
     (updateActiveParents env inp s).segActive,
     (updateActiveParents env inp s).graphEdges, []⟩ n hn

theorem reaches_ignored_mono (env : UpdEnv) {s t : FState}
    (hr : Reaches env s t) : ∀ n ∈ s.ignored, n ∈ t.ignored := by
  induction hr with
  | refl s' => exact fun n hn => hn
  | seg m hr ih =>
    intro n hn
    rw [addExternalSegment_ignored]
    exact ih n hn
  | cyc inp hr hg ih =>
    intro n hn
    exact cycle_ignored_mono env inp _ n (ih n hn)

theorem processGroup_segActive (env : UpdEnv) (inp : CycleInput) (s : FState)
    (nodes : List Nat) : (processGroup env inp s nodes).segActive = s.segActive :=
  rfl

theorem detect_fold_segActive (env : UpdEnv) (inp : CycleInput) :
    ∀ (gs : List (List Nat)) (x : FState),
    (gs.foldl (processGroup env inp) x).segActive = x.segActive := by
  intro gs
  induction gs with
  | nil => exact fun x => rfl
  | cons g rest ih =>
    intro x
    rw [List.foldl_cons, ih, processGroup_segActive]

theorem callCycle_segActive (env : UpdEnv) (inp : CycleInput) (s : FState) :
    (callCycle env inp s).segActive
      = (addSegmentEdges env (updateActiveParents env inp s)).2.segActive := by
  show (inp.groups.foldl (processGroup env inp) (preDetect env inp s)).segActive = _
  rw [detect_fold_segActive]
  rfl

/-- C7: at every state reachable by any sequence of external segment arrivals
and functor cycles (whose connected-component oracle answers meet its
contract), the clustered segment-id sets of distinct live components are
pairwise disjoint — a segment id belongs to at most one live component. -/
theorem components_disjoint (env : UpdEnv) (s : FState)
    (hr : Reaches env initState s) (c₁ c₂ : Nat) (ci₁ ci₂ : CompInfo)
    (h₁ : (c₁, ci₁) ∈ s.comps) (h₂ : (c₂, ci₂) ∈ s.comps) (hne : c₁ ≠ c₂)
    (n : Nat) (hn₁ : n ∈ ci₁.segments) : n ∉ ci₂.segments := by
  intro hn₂
  have hinv : Inv s := inv_reaches env hr inv_init
  have e₁ : s.nodeToComp n = some c₁ := (hinv.mapComp n c₁).mpr ⟨ci₁, h₁, hn₁⟩
  have e₂ : s.nodeToComp n = some c₂ := (hinv.mapComp n c₂).mpr ⟨ci₂, h₂, hn₂⟩
  rw [e₁] at e₂
  exact hne (Option.some.inj e₂)

/-- Environment for the witness traces: every segment scores 1 against a
zero segment threshold, no pair of boxes overlaps, zero object threshold. -/
def envWit : UpdEnv := ⟨fun _ => 1, 0, 0, fun _ _ => false, 0⟩

/-- Cycle input whose discovery returns the two singleton groups. -/
def inpTwoGroups : CycleInput :=
  ⟨[[1], [2]], fun _ => [], fun _ => 0, fun _ => none, fun _ => none,
   fun _ => none⟩

/-- The state after segments 1 and 2 arrive and one cycle runs, producing
two live components. -/
def sTwoComps : FState :=
  callCycle envWit inpTwoGroups
    (addExternalSegment 2 (addExternalSegment 1 initState))

/-- Witness for C7: after one cycle over segments 1 and 2 the two live
components own segment sets `[1]` and `[2]`, and segment 1 of component 0
is excluded from component 1. -/
theorem components_disjoint_witness : 1 ∉ (CompInfo.mk [2] []).segments :=
  components_disjoint envWit sTwoComps
    (Reaches.cyc inpTwoGroups
      (Reaches.seg 2 (Reaches.seg 1 (Reaches.refl initState))) (by decide))
    0 1 ⟨[1], []⟩ ⟨[2], []⟩ (by decide) (by decide) (by decide) 1 (by decide)

/-- C9: at every reachable state the active set contains only ids of object
nodes currently present in the graph — retirement erases a removed object's
id from the active set in the same step that removes its node, the per-cycle
resync only absorbs existing object-node ids, and materialization inserts an
object into the active set only after creating its node. -/
theorem active_subset_objects (env : UpdEnv) (s : FState)
    (hr : Reaches env initState s) : ∀ o ∈ s.active, o ∈ s.graphObjects :=
  (inv_reaches env hr inv_init).activeSub

/-- Cycle input materializing one single-segment cluster with no parent. -/
def inpOneObject : CycleInput :=
  ⟨[[1]], fun _ => [[1]], fun _ => 1, fun _ => none, fun _ => none,
   fun _ => none⟩

/-- The state after segment 1 arrives and one cycle materializes object 0
without a parent, leaving it in the active set. -/
def sOneObject : FState :=
  callCycle envWit inpOneObject (addExternalSegment 1 initState)

/-- Witness for C9: the parentless object 0 is in the active set of
`sOneObject`, and by the theorem its node exists in the graph. -/
theorem active_subset_objects_witness : 0 ∈ sOneObject.graphObjects :=
  active_subset_objects envWit sOneObject
    (Reaches.cyc inpOneObject (Reaches.seg 1 (Reaches.refl initState))
      (by decide))
    0 (by decide)

/-- C3 (amended): a segment whose best score is below `minSegmentScore` is
marked ignored with its active flag cleared; the decision is permanent, and
from then on the segment never belongs to any live component (hence never to
a cluster) in any subsequent cycle. However — contrary to the claim — later
segments that pass the edge checker against it still insert graph edges
incident to it; those edges are never traversed by discovery, whose
eligibility predicate excludes ignored segments. -/
theorem ignored_segment_permanent (env : UpdEnv) (s : FState) (n : Nat)
    (inp : CycleInput) (hr : Reaches env initState s) :
    (n ∈ s.graphSegments → n ∉ s.ignored → s.nodeToComp n = none →
      env.segScore n < env.minSegmentScore →
      n ∈ (callCycle env inp s).ignored
        ∧ (callCycle env inp s).segActive n = false)
    ∧ (∀ t : FState, n ∈ s.ignored → Reaches env s t →
        n ∈ t.ignored ∧ t.segActive n = false
        ∧ ∀ (c : Nat) (ci : CompInfo), (c, ci) ∈ t.comps → n ∉ ci.segments) := by
  have hinv : Inv s := inv_reaches env hr inv_init
  constructor
  · intro hseg hnig hmap hscore
    have htrig : n ∈ (addSegmentEdges env (updateActiveParents env inp s)).2.ignored :=
      segEdge_fold_trigger env (updateActiveParents env inp s).graphSegments
        (updateActiveParents env inp s).nodeToComp
        (updateActiveParents env inp s).graphSegments
        ⟨(updateActiveParents env inp s).ignored,
         (updateActiveParents env inp s).segActive,
         (updateActiveParents env inp s).graphEdges, []⟩ n hseg
        (Or.inr ⟨hmap, hscore⟩)
    constructor
    · rw [callCycle_ignored]
      exact htrig
    · rw [callCycle_segActive]
      exact segEdge_fold_flag env (updateActiveParents env inp s).graphSegments
        (updateActiveParents env inp s).nodeToComp
        (updateActiveParents env inp s).graphSegments
        ⟨(updateActiveParents env inp s).ignored,
         (updateActiveParents env inp s).segActive,
         (updateActiveParents env inp s).graphEdges, []⟩ hinv.ignFlag n htrig
  · intro t hmem hrt
    have hinv_t : Inv t := inv_reaches env hrt hinv
    have hmem_t : n ∈ t.ignored := reaches_ignored_mono env hrt n hmem
    refine ⟨hmem_t, hinv_t.ignFlag n hmem_t, ?_⟩
    intro c ci hc hns
    have he := (hinv_t.mapComp n c).mpr ⟨ci, hc, hns⟩
    rw [hinv_t.ignMap n hmem_t] at he
    cases he

/-- Environment where segment 1 scores 0 against a segment threshold of 1
(so it is ignored) and every other segment scores 1; every pair of boxes
passes the edge checker. -/
def envLow : UpdEnv := ⟨fun n => if n = 1 then 0 else 1, 1, 0, fun _ _ => true, 0⟩

/-- Empty-discovery input for the first cycle. -/
def inpNoGroups : CycleInput :=
  ⟨[], fun _ => [], fun _ => 0, fun _ => none, fun _ => none, fun _ => none⟩

/-- Discovery input for the second cycle: only the eligible segment 2. -/
def inpGroupTwo : CycleInput :=
  ⟨[[2]], fun _ => [], fun _ => 0, fun _ => none, fun _ => none, fun _ => none⟩

/-- The state after segment 1 arrives and the first cycle ignores it. -/
def sIgnored : FState :=
  callCycle envLow inpNoGroups (addExternalSegment 1 initState)

/-- The state after segment 2 arrives and the second cycle runs. -/
def sAfter : FState :=
  callCycle envLow inpGroupTwo (addExternalSegment 2 sIgnored)

/-- C3 counterexample: segment 1 was ignored in the first cycle (score
0 < 1); in the next cycle the new segment 2 (score 1, not below the
threshold) passes the edge checker against it, and the cycle inserts the
graph edge (2, 1) incident to the ignored segment — so an ignored segment
still contributes an edge in a subsequent cycle when a later segment
connects to it. -/
theorem ignored_segment_edge_cex :
    1 ∈ sAfter.ignored ∧ (2, 1) ∈ sAfter.graphEdges := by
  constructor
  · decide
  · decide

/-- Witness for C3: the low-scoring segment 1 is ignored with its flag
cleared by the first cycle, and across the second cycle it stays ignored,
keeps its flag cleared, and belongs to no live component. -/
theorem ignored_segment_permanent_witness :
    (1 ∈ sIgnored.ignored ∧ sIgnored.segActive 1 = false)
    ∧ (1 ∈ sAfter.ignored ∧ sAfter.segActive 1 = false
        ∧ ∀ (c : Nat) (ci : CompInfo), (c, ci) ∈ sAfter.comps →
            1 ∉ ci.segments) := by
  constructor
  · exact (ignored_segment_permanent envLow (addExternalSegment 1 initState) 1
      inpNoGroups (Reaches.seg 1 (Reaches.refl initState))).1
      (by decide) (by decide) (by decide) (by decide)
  · exact (ignored_segment_permanent envLow sIgnored 1 inpNoGroups
      (Reaches.cyc inpNoGroups (Reaches.seg 1 (Reaches.refl initState))
        (by decide))).2
      sAfter (by decide)
      (Reaches.cyc inpGroupTwo (Reaches.seg 2 (Reaches.refl sIgnored))
        (by decide))

end HydraLLM
